import Mathlib

/-!
Shallow embedding of the experiment-scheduling scripts
`pso/main/runexperiments.py` and `pso/main/fixhashes.py`.

Strings are modelled as `List Char` (Python 2 `str` is a sequence of
characters); files are `Option (List Char)` (`none` = path does not
exist); a call to `sys.exit(n)` or a raised exception is modelled as
`Except.error`.
-/

namespace PSO

/-- The whitespace characters recognised by the no-argument Python
`str.split()` (space, tab, newline, carriage return, vertical tab,
form feed). -/
def isPySpace (c : Char) : Bool :=
  c = ' ' || c = '\t' || c = '\n' || c = '\r' || c = '\x0b' || c = '\x0c'

/-- Accumulator worker for `splitWs`; `acc` holds the characters of the
token currently being read, in reverse order. -/
def splitWsAux : List Char → List Char → List (List Char)
  | [], acc => if acc.isEmpty then [] else [acc.reverse]
  | c :: rest, acc =>
    if isPySpace c then
      if acc.isEmpty then splitWsAux rest []
      else acc.reverse :: splitWsAux rest []
    else splitWsAux rest (c :: acc)

/-- Python `line.split()`: split on runs of whitespace, discarding empty
tokens (used in `fixhashes.py` line 19 and implicitly by the spec
canonicalization rule). -/
def splitWs (s : List Char) : List (List Char) :=
  splitWsAux s []

/-- Python `" ".join(tokens)` (runexperiments.py lines 138, 162;
fixhashes.py line 19). -/
def joinSpace : List (List Char) → List Char
  | [] => []
  | [t] => t
  | t :: ts => t ++ ' ' :: joinSpace ts

/-- Python `sorted` on a list of strings: lexicographic order on the
character sequences. -/
def pySorted (ts : List (List Char)) : List (List Char) :=
  ts.insertionSort (· ≤ ·)

/-- Canonicalization of a flag string, as performed by
`" ".join(sorted(line.split()))` in fixhashes.py line 19. -/
def canonicalize (s : List Char) : List Char :=
  joinSpace (pySorted (splitWs s))

/-- A token is well formed when it is nonempty and contains no
whitespace character; exactly the tokens `str.split()` can produce. -/
def WfToken (t : List Char) : Prop :=
  t ≠ [] ∧ ∀ c ∈ t, ¬ isPySpace c

theorem splitWsAux_wf (s : List Char) :
    ∀ acc, (∀ c ∈ acc, ¬ isPySpace c) →
      ∀ t ∈ splitWsAux s acc, WfToken t := by
  induction s with
  | nil =>
    intro acc hacc t ht
    simp only [splitWsAux] at ht
    by_cases h : acc.isEmpty
    · simp [h] at ht
    · simp [h] at ht
      subst ht
      refine ⟨?_, ?_⟩
      · simp only [List.isEmpty_iff] at h
        simpa using h
      · intro c hc
        exact hacc c (by simpa using hc)
  | cons c rest ih =>
    intro acc hacc t ht
    simp only [splitWsAux] at ht
    by_cases hsp : isPySpace c
    · simp only [hsp, if_true] at ht
      by_cases h : acc.isEmpty
      · simp only [h, if_true] at ht
        exact ih [] (by simp) t ht
      · simp only [h, if_false] at ht
        rcases List.mem_cons.mp ht with h1 | h1
        · subst h1
          refine ⟨?_, ?_⟩
          · simp only [List.isEmpty_iff] at h
            simpa using h
          · intro d hd
            exact hacc d (by simpa using hd)
        · exact ih [] (by simp) t h1
    · simp only [hsp, if_false] at ht
      refine ih (c :: acc) ?_ t ht
      intro d hd
      rcases List.mem_cons.mp hd with h1 | h1
      · subst h1; exact hsp
      · exact hacc d h1

theorem splitWs_wf (s : List Char) : ∀ t ∈ splitWs s, WfToken t :=
  splitWsAux_wf s [] (by simp)

theorem splitWsAux_no_space (t : List Char) (hts : ∀ c ∈ t, ¬ isPySpace c) :
    ∀ s acc, splitWsAux (t ++ s) acc = splitWsAux s (t.reverse ++ acc) := by
  induction t with
  | nil => intro s acc; simp
  | cons c cs ih =>
    intro s acc
    have hc : ¬ isPySpace c = true := hts c (by simp)
    have ih2 := ih (fun d hd => hts d (by simp [hd])) s (c :: acc)
    simp only [List.cons_append, splitWsAux, if_neg hc]
    simpa using ih2

/-- Round trip: joining well-formed tokens with single spaces and
splitting again recovers the tokens. -/
theorem splitWs_joinSpace (ts : List (List Char)) (h : ∀ t ∈ ts, WfToken t) :
    splitWs (joinSpace ts) = ts := by
  induction ts with
  | nil => simp [splitWs, joinSpace, splitWsAux]
  | cons t ts ih =>
    obtain ⟨hne, hns⟩ := h t (by simp)
    cases ts with
    | nil =>
      simp only [joinSpace, splitWs]
      rw [show t = t ++ [] by simp, splitWsAux_no_space t hns [] []]
      simp [splitWsAux, List.isEmpty_iff, hne]
    | cons u us =>
      simp only [joinSpace, splitWs]
      rw [splitWsAux_no_space t hns (' ' :: joinSpace (u :: us)) []]
      simp only [splitWsAux, isPySpace]
      have : (t.reverse ++ []).isEmpty = false := by
        simp [List.isEmpty_iff, hne]
      simp only [this, if_false, List.append_nil, List.reverse_reverse]
      have ih2 := ih (fun v hv => h v (by simp [hv]))
      simp only [splitWs] at ih2
      simp [ih2, hne]

theorem pySorted_perm (ts : List (List Char)) : (pySorted ts).Perm ts :=
  List.perm_insertionSort _ ts

theorem pySorted_sorted (ts : List (List Char)) :
    List.Sorted (· ≤ ·) (pySorted ts) :=
  List.sorted_insertionSort _ ts

theorem pySorted_eq_of_perm {ts us : List (List Char)} (h : ts.Perm us) :
    pySorted ts = pySorted us :=
  List.eq_of_perm_of_sorted
    (((pySorted_perm ts).trans h).trans (pySorted_perm us).symm)
    (pySorted_sorted ts) (pySorted_sorted us)

/-- **C1.** Canonicalization is order independent: the canonical strings
of two flag strings agree exactly when the strings carry the same
multiset of whitespace-delimited flag tokens; hence any hash of the
canonical string agrees on permutations of the same flag multiset, and
in particular `canonicalize "-b -a" = canonicalize "-a -b"`. -/
theorem canonicalize_eq_iff_perm :
    (∀ X Y : List Char,
        canonicalize X = canonicalize Y ↔ (splitWs X).Perm (splitWs Y)) ∧
    (∀ (hash : List Char → List Char) (X Y : List Char),
        (splitWs X).Perm (splitWs Y) →
          hash (canonicalize X) = hash (canonicalize Y)) ∧
    canonicalize ("-b -a".toList) = canonicalize ("-a -b".toList) := by
  have key : ∀ X Y : List Char,
      canonicalize X = canonicalize Y ↔ (splitWs X).Perm (splitWs Y) := by
    intro X Y
    constructor
    · intro h
      have hX : splitWs (canonicalize X) = pySorted (splitWs X) :=
        splitWs_joinSpace _ (fun t ht =>
          splitWs_wf X t ((pySorted_perm (splitWs X)).mem_iff.mp ht))
      have hY : splitWs (canonicalize Y) = pySorted (splitWs Y) :=
        splitWs_joinSpace _ (fun t ht =>
          splitWs_wf Y t ((pySorted_perm (splitWs Y)).mem_iff.mp ht))
      have heq : pySorted (splitWs X) = pySorted (splitWs Y) := by
        rw [← hX, ← hY, h]
      have h2 : (pySorted (splitWs X)).Perm (splitWs Y) := by
        rw [heq]; exact pySorted_perm (splitWs Y)
      exact (pySorted_perm (splitWs X)).symm.trans h2
    · intro h
      unfold canonicalize
      rw [pySorted_eq_of_perm h]
  refine ⟨key, fun hash X Y h => by rw [(key X Y).mpr h], ?_⟩
  exact (key _ _).mpr (by decide)

/-- Witness for C1 at the concrete flag strings of the spec example. -/
theorem canonicalize_eq_iff_perm_witness :
    canonicalize ("-b -a".toList) = canonicalize ("-a -b".toList) :=
  (canonicalize_eq_iff_perm.1 ("-b -a".toList) ("-a -b".toList)).mpr
    (by decide)

/-! ### Mixed-radix enumerator (`gen_combinations`, runexperiments.py 83-105) -/

/-- One pass of the inner `for i in xrange(len(counts)-1, -1, -1)` loop
of `gen_combinations`: increment the least-significant (last) digit,
carrying leftwards; digits that overflow are reset to 0; `none` models
the full wrap-around that terminates the `while` loop. -/
def step : List Nat → List Nat → Option (List Nat)
  | [], [] => none
  | c :: _cs, d :: ds =>
    match step _cs ds with
    | some ds2 => some (d :: ds2)
    | none => if d + 1 < c then some ((d + 1) :: ds.map (fun _ => 0)) else none
  | _, _ => none

/-- The `while True: yield tuple(cur); ...` loop of `gen_combinations`,
with explicit fuel (the loop terminates after `counts.prod` yields). -/
def genCombosAux (counts : List Nat) : List Nat → Nat → List (List Nat)
  | _, 0 => []
  | cur, fuel + 1 =>
    cur :: match step counts cur with
    | none => []
    | some nxt => genCombosAux counts nxt fuel

/-- `gen_combinations(counts)` (runexperiments.py 83-105): raises
`ValueError` when some count is not positive, otherwise enumerates
every index vector by carry-propagating mixed-radix counting starting
from the all-zero vector. -/
def gen_combinations (counts : List Nat) : Except String (List (List Nat)) :=
  if counts.any (fun c => c = 0) then
    Except.error "Counts contains non-positive value"
  else
    Except.ok (genCombosAux counts (List.replicate counts.length 0) counts.prod)

/-- An index vector is valid for `counts` when it has the same length
and is pointwise below the counts. -/
def Valid (counts v : List Nat) : Prop :=
  List.Forall₂ (fun c d => d < c) counts v

/-- Mixed-radix value of an index vector: the last digit is least
significant. -/
def val : List Nat → List Nat → Nat
  | _ :: cs, d :: ds => d * cs.prod + val cs ds
  | _, _ => 0

theorem val_eq_zero (counts : List Nat) :
    ∀ v, (∀ d ∈ v, d = 0) → val counts v = 0 := by
  induction counts with
  | nil => intro v _; cases v <;> simp [val]
  | cons c cs ih =>
    intro v hv
    cases v with
    | nil => simp [val]
    | cons d ds =>
      have hd : d = 0 := hv d (by simp)
      have := ih ds (fun e he => hv e (by simp [he]))
      simp [val, hd, this]

theorem val_lt_prod {counts v : List Nat} (h : Valid counts v) :
    val counts v < counts.prod := by
  induction h with
  | nil => simp [val]
  | cons hcd htail ih =>
    rename_i c d cs ds
    simp only [val, List.prod_cons]
    calc d * cs.prod + val cs ds < d * cs.prod + cs.prod := by omega
      _ = (d + 1) * cs.prod := by ring
      _ ≤ c * cs.prod := Nat.mul_le_mul_right _ (by omega)

theorem valid_map_zero {counts v : List Nat}
    (h : Valid counts v) : Valid counts (v.map (fun _ => 0)) := by
  induction h with
  | nil => exact List.Forall₂.nil
  | cons hcd htail ih => exact List.Forall₂.cons (show 0 < _ by omega) ih

theorem step_spec {counts v : List Nat} (h : Valid counts v) :
    (∀ w, step counts v = some w →
        Valid counts w ∧ val counts w = val counts v + 1) ∧
    (step counts v = none → val counts v + 1 = counts.prod) := by
  induction h with
  | nil => exact ⟨fun w hw => by simp [step] at hw, fun _ => by simp [val]⟩
  | cons hcd htail ih =>
    rename_i c d cs ds
    constructor
    · intro w hw
      simp only [step] at hw
      cases hstep : step cs ds with
      | some ds2 =>
        rw [hstep] at hw
        simp only [Option.some.injEq] at hw
        subst hw
        obtain ⟨hv2, hval2⟩ := ih.1 ds2 hstep
        refine ⟨List.Forall₂.cons hcd hv2, ?_⟩
        simp [val, hval2]
        omega
      | none =>
        rw [hstep] at hw
        have hsum := ih.2 hstep
        by_cases hlt : d + 1 < c
        · simp only [hlt, if_true, Option.some.injEq] at hw
          subst hw
          refine ⟨List.Forall₂.cons hlt (valid_map_zero htail), ?_⟩
          have hz : val cs (ds.map (fun _ => 0)) = 0 :=
            val_eq_zero cs _ (by simp)
          simp only [val, hz]
          have : ds.map (fun _ => 0) = List.map (fun _ => 0) ds := rfl
          nlinarith [hsum]
        · simp [hlt] at hw
    · intro hw
      simp only [step] at hw
      cases hstep : step cs ds with
      | some ds2 => rw [hstep] at hw; simp at hw
      | none =>
        rw [hstep] at hw
        have hsum := ih.2 hstep
        by_cases hlt : d + 1 < c
        · simp [hlt] at hw
        · have hc : c = d + 1 := by omega
          simp only [val, List.prod_cons, hc]
          nlinarith [hsum]

theorem mixed_digit_inj {P d e r₁ r₂ : Nat} (h₁ : r₁ < P) (h₂ : r₂ < P)
    (h : d * P + r₁ = e * P + r₂) : d = e ∧ r₁ = r₂ := by
  have hP : 0 < P := Nat.lt_of_le_of_lt (Nat.zero_le _) h₁
  have hr : r₁ = r₂ := by
    have h2 : r₁ + d * P = r₂ + e * P := by omega
    have e1 : (r₁ + d * P) % P = r₁ % P := Nat.add_mul_mod_self_right r₁ d P
    have e2 : (r₂ + e * P) % P = r₂ % P := Nat.add_mul_mod_self_right r₂ e P
    rw [Nat.mod_eq_of_lt h₁] at e1
    rw [Nat.mod_eq_of_lt h₂] at e2
    rw [← e1, ← e2, h2]
  subst hr
  have hde : d * P = e * P := by omega
  exact ⟨Nat.eq_of_mul_eq_mul_right hP hde, rfl⟩

theorem val_inj {counts u w : List Nat} (hu : Valid counts u)
    (hw : Valid counts w) (h : val counts u = val counts w) : u = w := by
  induction hu generalizing w with
  | nil => cases hw; rfl
  | cons hcd htail ih =>
    rename_i c d cs ds
    cases hw with
    | cons hce hwtail =>
      rename_i e es
      simp only [val] at h
      obtain ⟨hde, hres⟩ := mixed_digit_inj (val_lt_prod htail)
        (val_lt_prod hwtail) h
      rw [hde, ih hwtail hres]

theorem val_surj {counts : List Nat} (hpos : ∀ c ∈ counts, 0 < c) :
    ∀ n, n < counts.prod → ∃ v, Valid counts v ∧ val counts v = n := by
  induction counts with
  | nil =>
    intro n hn
    simp only [List.prod_nil, Nat.lt_one_iff] at hn
    exact ⟨[], List.Forall₂.nil, by simp [val, hn]⟩
  | cons c cs ih =>
    intro n hn
    have hP : 0 < cs.prod :=
      List.prod_pos (fun x hx => hpos x (by simp [hx]))
    obtain ⟨ds, hds, hval⟩ :=
      ih (fun x hx => hpos x (by simp [hx])) (n % cs.prod)
        (Nat.mod_lt _ hP)
    refine ⟨n / cs.prod :: ds, List.Forall₂.cons ?_ hds, ?_⟩
    · rw [Nat.div_lt_iff_lt_mul hP]
      simpa [List.prod_cons, Nat.mul_comm] using hn
    · simp only [val, hval]
      rw [Nat.mul_comm]
      exact Nat.div_add_mod n cs.prod

theorem genCombosAux_spec (counts : List Nat) :
    ∀ fuel v, Valid counts v → val counts v + fuel = counts.prod →
      (genCombosAux counts v fuel).length = fuel ∧
      ∀ k, k < fuel → ∃ w, (genCombosAux counts v fuel)[k]? = some w ∧
        Valid counts w ∧ val counts w = val counts v + k := by
  intro fuel
  induction fuel with
  | zero => intro v _ _; simp [genCombosAux]
  | succ fuel ih =>
    intro v hv hval
    cases hstep : step counts v with
    | none =>
      have h1 := (step_spec hv).2 hstep
      have hfuel : fuel = 0 := by omega
      subst hfuel
      refine ⟨by simp [genCombosAux, hstep], ?_⟩
      intro k hk
      interval_cases k
      exact ⟨v, by simp [genCombosAux, hstep], hv, by simp⟩
    | some nxt =>
      obtain ⟨hnv, hnval⟩ := (step_spec hv).1 nxt hstep
      obtain ⟨ihlen, ihidx⟩ := ih nxt hnv (by omega)
      refine ⟨by simp [genCombosAux, hstep, ihlen], ?_⟩
      intro k hk
      cases k with
      | zero => exact ⟨v, by simp [genCombosAux, hstep], hv, by simp⟩
      | succ j =>
        obtain ⟨w, hw, hwv, hwval⟩ := ihidx j (by omega)
        refine ⟨w, ?_, hwv, by omega⟩
        simpa [genCombosAux, hstep] using hw

theorem valid_replicate_zero {counts : List Nat}
    (hpos : ∀ c ∈ counts, 0 < c) :
    Valid counts (List.replicate counts.length 0) := by
  induction counts with
  | nil => exact List.Forall₂.nil
  | cons c cs ih =>
    exact List.Forall₂.cons (hpos c (by simp))
      (ih (fun x hx => hpos x (by simp [hx])))

/-- **C2.** For positive group cardinalities, `gen_combinations`
succeeds and yields exactly `counts.prod` index vectors without
duplicates, covering the full cartesian space, in carry-propagating
mixed-radix counting order: the vector at position `k` has mixed-radix
value `k`, with the last-declared group as least-significant digit. -/
theorem gen_combinations_correct (counts : List Nat)
    (hpos : ∀ c ∈ counts, 0 < c) :
    ∃ l, gen_combinations counts = Except.ok l ∧
      l.length = counts.prod ∧
      l.Nodup ∧
      (∀ v, v ∈ l ↔ Valid counts v) ∧
      (∀ k, k < counts.prod →
        ∃ w, l[k]? = some w ∧ val counts w = k) := by
  have hnone : counts.any (fun c => c = 0) = false := by
    simp only [List.any_eq_false]
    intro c hc
    have := hpos c hc
    simp
    omega
  have hzv : Valid counts (List.replicate counts.length 0) :=
    valid_replicate_zero hpos
  have hz0 : val counts (List.replicate counts.length 0) = 0 :=
    val_eq_zero counts _ (fun d hd => (List.eq_of_mem_replicate hd))
  obtain ⟨hlen, hidx⟩ :=
    genCombosAux_spec counts counts.prod
      (List.replicate counts.length 0) hzv (by omega)
  set l := genCombosAux counts (List.replicate counts.length 0)
    counts.prod with hl
  have hidx2 : ∀ k, k < counts.prod →
      ∃ w, l[k]? = some w ∧ Valid counts w ∧ val counts w = k := by
    intro k hk
    obtain ⟨w, h1, h2, h3⟩ := hidx k hk
    exact ⟨w, h1, h2, by omega⟩
  refine ⟨l, ?_, hlen, ?_, ?_, fun k hk => ?_⟩
  · simp [gen_combinations, hnone, hl]
  · rw [List.nodup_iff_injective_get]
    intro i j hij
    obtain ⟨wi, hwi, _, hvi⟩ := hidx2 i.1 (by rw [← hlen]; exact i.isLt)
    obtain ⟨wj, hwj, _, hvj⟩ := hidx2 j.1 (by rw [← hlen]; exact j.isLt)
    have h1 : l[i.1]? = some (l.get i) := by
      rw [List.getElem?_eq_getElem i.isLt]
      simp [List.get_eq_getElem]
    have h2 : l[j.1]? = some (l.get j) := by
      rw [List.getElem?_eq_getElem j.isLt]
      simp [List.get_eq_getElem]
    rw [h1] at hwi
    rw [h2] at hwj
    have e1 : l.get i = wi := Option.some.inj hwi
    have e2 : l.get j = wj := Option.some.inj hwj
    apply Fin.ext
    rw [← hvi, ← hvj, ← e1, ← e2, hij]
  · intro v
    constructor
    · intro hv
      obtain ⟨k, hk⟩ := List.mem_iff_getElem?.mp hv
      have hklt : k < counts.prod := by
        rw [← hlen]
        by_contra hcon
        push_neg at hcon
        rw [List.getElem?_eq_none hcon] at hk
        cases hk
      obtain ⟨w, hw, hwv, _⟩ := hidx2 k hklt
      rw [hk] at hw
      rwa [Option.some.inj hw]
    · intro hv
      have hvlt : val counts v < counts.prod := val_lt_prod hv
      obtain ⟨w, hw, hwv, hwval⟩ := hidx2 (val counts v) hvlt
      have : w = v := val_inj hwv hv hwval
      subst this
      exact List.mem_iff_getElem?.mpr ⟨val counts w, hw⟩
  · obtain ⟨w, hw, _, hwval⟩ := hidx2 k hk
    exact ⟨w, hw, hwval⟩

/-- Witness for C2 at the concrete cardinalities `[2, 3]`. -/
theorem gen_combinations_correct_witness :
    ∃ l, gen_combinations [2, 3] = Except.ok l ∧
      l.length = List.prod [2, 3] ∧
      l.Nodup ∧
      (∀ v, v ∈ l ↔ Valid [2, 3] v) ∧
      (∀ k, k < List.prod [2, 3] →
        ∃ w, l[k]? = some w ∧ val [2, 3] w = k) :=
  gen_combinations_correct [2, 3] (by decide)

/-! ### Completion detector (`runstate`, runexperiments.py 108-133) -/

/-- The sentinel written on success (`DONE_STR` in runexperiments.py). -/
def DONE_STR : List Char := "# DONE".toList

/-- The three classifications returned by `runstate`. -/
inductive RState
  | run
  | skip
  | rerun
deriving DecidableEq

/-- `pat` is an initial segment of `s`. -/
def isPre : List Char → List Char → Bool
  | [], _ => true
  | _ :: _, [] => false
  | a :: as, b :: bs => a = b && isPre as bs

/-- Python substring containment `pat in s`. -/
def containsSub (pat : List Char) : List Char → Bool
  | [] => pat.isEmpty
  | c :: rest => isPre pat (c :: rest) || containsSub pat rest

/-- `runstate(outname)` (runexperiments.py 112-133).  The file is
`none` when the path does not exist.  `f.seek(-len(DONE_STR)-2, 2)`
raises `IOError` exactly when the file holds fewer than
`len(DONE_STR)+2` characters, upon which the script calls
`sys.exit(1)`, modelled by `Except.error 1`; otherwise only the final
`len(DONE_STR)+2` characters are read and searched for `"\n# DONE"`. -/
def runstate (file : Option (List Char)) : Except Nat RState :=
  match file with
  | none => Except.ok RState.run
  | some content =>
    if content.length < DONE_STR.length + 2 then Except.error 1
    else if containsSub ('\n' :: DONE_STR)
        (content.drop (content.length - (DONE_STR.length + 2))) then
      Except.ok RState.skip
    else
      Except.ok RState.rerun

/-- Scanning loop of `main` (runexperiments.py 160-178): classify each
candidate output file in turn; a `sys.exit(1)` raised inside `runstate`
aborts the whole batch. -/
def scanStates : List (Option (List Char)) → Except Nat (List RState)
  | [] => Except.ok []
  | f :: fs =>
    match runstate f with
    | Except.error e => Except.error e
    | Except.ok s =>
      match scanStates fs with
      | Except.error e => Except.error e
      | Except.ok ss => Except.ok (s :: ss)

/-! ### Job runner (`run`, runexperiments.py 136-147) -/

/-- `run(progname, flags, outname)` (runexperiments.py 136-147),
modelling the external process by its standard output `childOut` and
its exit code.  Returns the final file content and the boolean result:
the header line `"# " + " ".join(flags)` is written first, the child
output follows verbatim, and exactly on exit code 0 the sentinel line
`"# DONE"` is appended and `True` returned. -/
def run (flags : List (List Char)) (childOut : List Char)
    (exitCode : Int) : List Char × Bool :=
  let content := '#' :: ' ' :: (joinSpace flags ++ '\n' :: childOut)
  if exitCode = 0 then (content ++ DONE_STR ++ ['\n'], true)
  else (content, false)

/-- Execution loop of `main` (runexperiments.py 191-196): run the jobs
sequentially; as soon as `run` returns `False` the script calls
`sys.exit(1)` (modelled by `Except.error 1`) and the remaining jobs are
never executed. -/
def runBatch :
    List (List (List Char) × List Char × Int) → Except Nat (List (List Char))
  | [] => Except.ok []
  | (flags, childOut, code) :: rest =>
    let r := run flags childOut code
    if r.2 then
      match runBatch rest with
      | Except.ok files => Except.ok (r.1 :: files)
      | Except.error e => Except.error e
    else Except.error 1

/-! ### Repair tool (`fixhashes.py` 9-28) -/

/-- Python `file.readline()`: the characters up to and including the
first newline, or the whole content if it has none. -/
def firstLine : List Char → List Char
  | [] => []
  | c :: rest => if c = '\n' then ['\n'] else c :: firstLine rest

/-- Python `line.startswith('#')`. -/
def startsHash : List Char → Bool
  | [] => false
  | c :: _ => c = '#'

/-- Python `line.lstrip('# ')`: remove every leading character that is
`'#'` or `' '`. -/
def lstripHashSpace : List Char → List Char
  | [] => []
  | c :: rest =>
    if c = '#' || c = ' ' then lstripHashSpace rest else c :: rest

/-- Outcome of the repair tool for one file: `unchanged` (printed `S`),
`renamed` (printed `R`, file renamed), `error` (printed `E`, file left
alone). -/
inductive FixOutcome
  | unchanged
  | renamed (newName : List Char)
  | error
deriving DecidableEq

/-- Body of the per-file loop of `fixhashes.main` (fixhashes.py 11-28)
for a file whose name already parsed as `pre-dig-iter`, parametrised by
the digest function (`hashlib.md5(...).hexdigest()` in the source). -/
def fixFile (hash : List Char → List Char) (pre dig iter content : List Char) :
    FixOutcome :=
  let line := firstLine content
  if !startsHash line then FixOutcome.error
  else
    let calcDig := hash (canonicalize (lstripHashSpace line))
    if calcDig = dig then FixOutcome.unchanged
    else FixOutcome.renamed (pre ++ '-' :: (calcDig ++ '-' :: iter))

/-! ### Flag rendering (`iterflags` in `gen_experiments`,
runexperiments.py 63-77) -/

/-- A Python value appearing in an experiment tuple: a string, a
boolean, or `None`. -/
inductive PyVal
  | str (s : List Char)
  | boolean (b : Bool)
  | pynone
deriving DecidableEq

/-- The token rule of `iterflags` for one `(flag, setting)` pair:
`None` is skipped, `True` gives `-flag`, `False` gives `-noflag`, any
other value gives `-flag=value`. -/
def renderFlag (flag : List Char) : PyVal → Option (List Char)
  | PyVal.pynone => none
  | PyVal.boolean true => some ('-' :: flag)
  | PyVal.boolean false => some ('-' :: 'n' :: 'o' :: flag)
  | PyVal.str s => some ('-' :: (flag ++ '=' :: s))

/-- Tokens produced for one group: zip the names with the selected
value tuple and render each pair. -/
def renderGroup (flags : List (List Char)) (vals : List PyVal) :
    List (List Char) :=
  (List.zip flags vals).filterMap (fun p => renderFlag p.1 p.2)

/-- `iterflags(combo)` (runexperiments.py 63-77): walk
`zip(items, combo)`; for each group look up the selected value tuple
and raise `ValueError` when its arity differs from the arity of the
name tuple, otherwise yield the rendered tokens. -/
def iterflags (items : List (List (List Char) × List (List PyVal)))
    (combo : List Nat) : Except String (List (List Char)) :=
  match items, combo with
  | [], _ => Except.ok []
  | _, [] => Except.ok []
  | (flags, values) :: items2, i :: combo2 =>
    let vals := (values[i]?).getD []
    if flags.length ≠ vals.length then
      Except.error "Invalid experiment setting"
    else
      match iterflags items2 combo2 with
      | Except.error e => Except.error e
      | Except.ok rest => Except.ok (renderGroup flags vals ++ rest)

/-! ### Helper lemmas on lists and substring search -/

theorem drop_length_append (a b : List Char) : (a ++ b).drop a.length = b := by
  induction a with
  | nil => simp
  | cons c cs ih => simp [ih]

theorem suffix_drop_eq {a l : List Char} (h : a <:+ l) :
    l.drop (l.length - a.length) = a := by
  obtain ⟨t, rfl⟩ := h
  rw [List.length_append, Nat.add_sub_cancel]
  exact drop_length_append t a

theorem containsSub_cons {pat s : List Char} (c : Char)
    (h : containsSub pat s = true) : containsSub pat (c :: s) = true := by
  simp [containsSub, h]

theorem containsSub_of_drop {pat l : List Char} {k : Nat}
    (h : containsSub pat (l.drop k) = true) : containsSub pat l = true := by
  induction l generalizing k with
  | nil => rw [List.drop_nil] at h; exact h
  | cons c cs ih =>
    cases k with
    | zero => simpa using h
    | succ j => exact containsSub_cons c (ih (k := j) (by simpa using h))

/-- **C3.** The completion detector returns `RUN` exactly when the path
does not exist; for an existing file long enough for the tail seek it
inspects only the final `len(DONE_STR)+2` characters, returning `SKIP`
exactly when `"\n# DONE"` occurs in that tail window and `RERUN`
otherwise; in particular the classification depends only on that tail
window. -/
theorem runstate_spec :
    (∀ file, runstate file = Except.ok RState.run ↔ file = none) ∧
    (∀ content : List Char, DONE_STR.length + 2 ≤ content.length →
      (runstate (some content) = Except.ok RState.skip ↔
        containsSub ('\n' :: DONE_STR)
          (content.drop (content.length - (DONE_STR.length + 2))) = true) ∧
      (runstate (some content) = Except.ok RState.rerun ↔
        containsSub ('\n' :: DONE_STR)
          (content.drop (content.length - (DONE_STR.length + 2))) = false)) ∧
    (∀ c₁ c₂ : List Char, DONE_STR.length + 2 ≤ c₁.length →
      DONE_STR.length + 2 ≤ c₂.length →
      c₁.drop (c₁.length - (DONE_STR.length + 2)) =
        c₂.drop (c₂.length - (DONE_STR.length + 2)) →
      runstate (some c₁) = runstate (some c₂)) := by
  refine ⟨?_, ?_, ?_⟩
  · intro file
    cases file with
    | none => simp [runstate]
    | some content =>
      simp only [runstate]
      split_ifs <;> simp
  · intro content h
    have hlt : ¬ content.length < DONE_STR.length + 2 := by omega
    by_cases hc : containsSub ('\n' :: DONE_STR)
        (content.drop (content.length - (DONE_STR.length + 2))) = true
    · constructor <;> simp [runstate, if_neg hlt, hc]
    · rw [Bool.not_eq_true] at hc
      constructor <;> simp [runstate, if_neg hlt, hc]
  · intro c₁ c₂ h1 h2 heq
    have hlt1 : ¬ c₁.length < DONE_STR.length + 2 := by omega
    have hlt2 : ¬ c₂.length < DONE_STR.length + 2 := by omega
    simp only [runstate, if_neg hlt1, if_neg hlt2, heq]

/-- Witness for C3 on a concrete complete file. -/
theorem runstate_spec_witness :
    DONE_STR.length + 2 ≤ ("x\n# DONE\n".toList).length ∧
    runstate (some ("x\n# DONE\n".toList)) = Except.ok RState.skip :=
  ⟨by decide, ((runstate_spec.2.1 ("x\n# DONE\n".toList) (by decide)).1).mpr
    (by decide)⟩

/-- **C9.** For an existing candidate output file the tail seek raises
`IOError` exactly when the file is shorter than `len("# DONE")+2 = 8`
characters; then `runstate` does not classify but exits with status 1,
and the scanning loop of `main` aborts the whole batch. -/
theorem runstate_ioerror :
    (∀ content : List Char,
      runstate (some content) = Except.error 1 ↔
        content.length < DONE_STR.length + 2) ∧
    (∀ pre post content, (∀ f ∈ pre, ∃ s, runstate f = Except.ok s) →
      content.length < DONE_STR.length + 2 →
      scanStates (pre ++ some content :: post) = Except.error 1) := by
  constructor
  · intro content
    simp only [runstate]
    split_ifs with h1 h2 <;> simp [h1]
  · intro pre
    induction pre with
    | nil =>
      intro post content _ hlen
      simp only [List.nil_append, scanStates, runstate, if_pos hlen]
    | cons f fs ih =>
      intro post content hok hlen
      obtain ⟨s, hs⟩ := hok f (by simp)
      have := ih post content (fun g hg => hok g (by simp [hg])) hlen
      simp only [List.cons_append, scanStates, hs, List.append_eq, this]

/-- Witness for C9: an empty leftover file aborts the scan. -/
theorem runstate_ioerror_witness :
    scanStates [none, some [], some ("x\n# DONE\n".toList)] =
      Except.error 1 :=
  runstate_ioerror.2 [none] [some ("x\n# DONE\n".toList)] []
    (fun f hf => by
      have : f = none := by simpa using hf
      exact ⟨RState.run, by rw [this]; rfl⟩)
    (by decide)

theorem runBatch_error_aux (flags : List (List Char)) (childOut : List Char)
    (code : Int) (post : List (List (List Char) × List Char × Int)) :
    ∀ pre, (∀ j ∈ pre, j.2.2 = (0 : Int)) → code ≠ 0 →
      runBatch (pre ++ (flags, childOut, code) :: post) = Except.error 1 := by
  intro pre
  induction pre with
  | nil =>
    intro _ hcode
    simp [runBatch, run, hcode]
  | cons j js ih =>
    intro hok hcode
    obtain ⟨f2, c2, cd2⟩ := j
    have hcd2 : cd2 = 0 := hok (f2, c2, cd2) (by simp)
    have hrest := ih (fun g hg => hok g (by simp [hg])) hcode
    simp [runBatch, run, hcd2, hrest]

/-- **C6.** `run` returns `True` and appends the flushed sentinel line
exactly when the external process exits with code 0; on a non-zero exit
the file keeps only the header and child output (no sentinel), `False`
is returned, and the execution loop of `main` aborts the whole
remaining batch immediately with exit status 1, with no retry. -/
theorem run_fail_fast :
    (∀ flags childOut (code : Int),
      ((run flags childOut code).2 = true ↔ code = 0) ∧
      (code = 0 → (run flags childOut code).1 =
        ('#' :: ' ' :: (joinSpace flags ++ '\n' :: childOut)) ++
          DONE_STR ++ ['\n']) ∧
      (code ≠ 0 → (run flags childOut code).1 =
        '#' :: ' ' :: (joinSpace flags ++ '\n' :: childOut))) ∧
    (∀ pre flags childOut (code : Int) post,
      (∀ j ∈ pre, j.2.2 = (0 : Int)) → code ≠ 0 →
      runBatch (pre ++ (flags, childOut, code) :: post) = Except.error 1) := by
  constructor
  · intro flags childOut code
    refine ⟨?_, ?_, ?_⟩
    · by_cases h : code = 0 <;> simp [run, h]
    · intro h; simp [run, h]
    · intro h; simp [run, h]
  · intro pre flags childOut code post hok hcode
    exact runBatch_error_aux flags childOut code post pre hok hcode

/-- Witness for C6: the second job fails, the third is never run. -/
theorem run_fail_fast_witness :
    runBatch [([['-', 'a']], [], (0 : Int)), ([], [], (2 : Int)),
      ([], [], (0 : Int))] = Except.error 1 :=
  run_fail_fast.2 [([['-', 'a']], [], (0 : Int))] [] [] 2
    [([], [], (0 : Int))]
    (by
      intro j hj
      have h : j = ([['-', 'a']], [], (0 : Int)) := by simpa using hj
      rw [h])
    (by decide)

/-- **C8 counterexample.** With child output `"x\n"` (or any child
output at all), the successful-run file content is the header, the
child output, and then the sentinel line appended directly: it is never
preceded by a blank line, so the claimed trailing blank line is absent
(the content does not end with `"\n\n# DONE\n"`). -/
theorem run_no_blank_line :
    (run [['-', 'a']] ['x', '\n'] 0).1 = ("# -a\nx\n# DONE\n".toList) ∧
    ¬ ("\n\n# DONE\n".toList <:+ (run [['-', 'a']] ['x', '\n'] 0).1) := by
  constructor
  · rfl
  · intro h
    have h2 := suffix_drop_eq h
    revert h2
    decide

/-- **C8 (amended).** The output file of a successful run is exactly:
the line `"# "` plus the flags joined by single spaces in the order the
flag sequence was given to `run` (which does not reorder them), then
the child standard output verbatim, then the literal sentinel line
`"# DONE"` with its trailing newline appended directly after the child
output — with no separating blank line. -/
theorem run_output_format (flags : List (List Char)) (childOut : List Char) :
    run flags childOut 0 =
      ((('#' :: ' ' :: joinSpace flags) ++ ['\n']) ++ childOut ++
        (DONE_STR ++ ['\n']), true) := by
  simp [run]

/-- Helper: a file whose content ends with `"\n# DONE\n"` is classified
`SKIP`. -/
theorem runstate_append_sentinel (Z : List Char) :
    runstate (some (Z ++ ('\n' :: (DONE_STR ++ ['\n'])))) =
      Except.ok RState.skip := by
  have hslen : ('\n' :: (DONE_STR ++ ['\n'])).length = DONE_STR.length + 2 := by
    simp
  have hlen : (Z ++ ('\n' :: (DONE_STR ++ ['\n']))).length =
      Z.length + (DONE_STR.length + 2) := by
    rw [List.length_append, hslen]
  have h1 : ¬ ((Z ++ ('\n' :: (DONE_STR ++ ['\n']))).length <
      DONE_STR.length + 2) := by omega
  have hdrop : (Z ++ ('\n' :: (DONE_STR ++ ['\n']))).drop
      ((Z ++ ('\n' :: (DONE_STR ++ ['\n']))).length - (DONE_STR.length + 2)) =
      '\n' :: (DONE_STR ++ ['\n']) := by
    have he : (Z ++ ('\n' :: (DONE_STR ++ ['\n']))).length -
        (DONE_STR.length + 2) = Z.length := by omega
    rw [he]
    exact drop_length_append Z _
  have hc : containsSub ('\n' :: DONE_STR) ('\n' :: (DONE_STR ++ ['\n'])) =
      true := by decide
  simp only [runstate, if_neg h1, hdrop, hc, if_true]

/-- **C4 counterexample.** The round trip fails as universally stated:
for child output `"x"` (no trailing newline) the successful-run file is
classified `RERUN`, not `SKIP`; and for empty child output the file
truncated just before the sentinel line is 5 characters long, so the
tail seek fails and the batch exits instead of returning `RERUN`. -/
theorem run_runstate_roundtrip_fails :
    runstate (some (run [['-', 'a']] ['x'] 0).1) = Except.ok RState.rerun ∧
    runstate (some ('#' :: ' ' :: (joinSpace [['-', 'a']] ++ '\n' :: []))) =
      Except.error 1 := by
  constructor
  · rfl
  · rfl

/-- **C4 (amended).** Writer/reader round trip: if the child standard
output is empty or ends with a newline, the file written by `run` after
exit code 0 is classified `SKIP`; and the same file truncated just
before the sentinel line is classified `RERUN` provided it is at least
`len("# DONE")+2` characters long and the substring `"\n# DONE"` occurs
nowhere in it. -/
theorem run_runstate_roundtrip :
    (∀ flags childOut, (childOut = [] ∨ ∃ co, childOut = co ++ ['\n']) →
      runstate (some (run flags childOut 0).1) = Except.ok RState.skip) ∧
    (∀ flags childOut,
      DONE_STR.length + 2 ≤
        ('#' :: ' ' :: (joinSpace flags ++ '\n' :: childOut)).length →
      containsSub ('\n' :: DONE_STR)
        ('#' :: ' ' :: (joinSpace flags ++ '\n' :: childOut)) = false →
      runstate (some ('#' :: ' ' :: (joinSpace flags ++ '\n' :: childOut))) =
        Except.ok RState.rerun) := by
  constructor
  · intro flags childOut hco
    rcases hco with rfl | ⟨co, rfl⟩
    · have hcontent : (run flags [] 0).1 =
          ('#' :: ' ' :: joinSpace flags) ++ ('\n' :: (DONE_STR ++ ['\n'])) := by
        simp [run]
      rw [hcontent]
      exact runstate_append_sentinel _
    · have hcontent : (run flags (co ++ ['\n']) 0).1 =
          (('#' :: ' ' :: joinSpace flags ++ ['\n']) ++ co) ++
            ('\n' :: (DONE_STR ++ ['\n'])) := by
        simp [run]
      rw [hcontent]
      exact runstate_append_sentinel _
  · intro flags childOut hlen hc
    have h1 : ¬ (('#' :: ' ' :: (joinSpace flags ++ '\n' :: childOut)).length <
        DONE_STR.length + 2) := by omega
    have h2 : containsSub ('\n' :: DONE_STR)
        (('#' :: ' ' :: (joinSpace flags ++ '\n' :: childOut)).drop
          (('#' :: ' ' :: (joinSpace flags ++ '\n' :: childOut)).length -
            (DONE_STR.length + 2))) = false := by
      by_contra hcon
      rw [Bool.not_eq_false] at hcon
      rw [containsSub_of_drop hcon] at hc
      cases hc
    simp only [runstate, if_neg h1, h2, Bool.false_eq_true, if_false]

/-- Witness for C4 (amended): newline-terminated child output gives a
file classified `SKIP`. -/
theorem run_runstate_roundtrip_witness :
    runstate (some (run [['-', 'a']] ['x', '\n'] 0).1) =
      Except.ok RState.skip :=
  run_runstate_roundtrip.1 [['-', 'a']] ['x', '\n'] (Or.inr ⟨['x'], rfl⟩)

/-- **C5.** For a file whose name parsed as `(pre, dig, iter)`: when its
first line does not start with the header marker `#` the repair tool
reports an error and renames nothing; otherwise it strips the marker,
re-canonicalizes the remaining text and compares the recomputed digest
with the embedded one — equal digests leave the file unchanged, a
differing digest renames the file to the name embedding exactly the
recomputed digest with the same `pre` and `iter`; every file yields
exactly one of the three outcomes. -/
theorem fixFile_spec (hash : List Char → List Char)
    (pre dig iter content : List Char) :
    (startsHash (firstLine content) = false →
      fixFile hash pre dig iter content = FixOutcome.error) ∧
    (startsHash (firstLine content) = true →
      (hash (canonicalize (lstripHashSpace (firstLine content))) = dig →
        fixFile hash pre dig iter content = FixOutcome.unchanged) ∧
      (hash (canonicalize (lstripHashSpace (firstLine content))) ≠ dig →
        fixFile hash pre dig iter content =
          FixOutcome.renamed (pre ++ '-' ::
            (hash (canonicalize (lstripHashSpace (firstLine content))) ++
              '-' :: iter)))) ∧
    (fixFile hash pre dig iter content = FixOutcome.error ∨
      fixFile hash pre dig iter content = FixOutcome.unchanged ∨
      ∃ nm, fixFile hash pre dig iter content = FixOutcome.renamed nm) := by
  refine ⟨?_, ?_, ?_⟩
  · intro h
    simp [fixFile, h]
  · intro h
    constructor
    · intro hd
      simp [fixFile, h, hd]
    · intro hd
      simp [fixFile, h, hd]
  · by_cases h : startsHash (firstLine content) = true
    · by_cases hd :
        hash (canonicalize (lstripHashSpace (firstLine content))) = dig
      · exact Or.inr (Or.inl (by simp [fixFile, h, hd]))
      · exact Or.inr (Or.inr ⟨pre ++ '-' ::
          (hash (canonicalize (lstripHashSpace (firstLine content))) ++
            '-' :: iter), by simp [fixFile, h, hd]⟩)
    · rw [Bool.not_eq_true] at h
      exact Or.inl (by simp [fixFile, h])

/-- Witness for C5: a drifted digest leads to a rename embedding the
recomputed digest. -/
theorem fixFile_spec_witness :
    fixFile (fun s => s) ("exp".toList) ("x".toList) ("00".toList)
      ("# b a\n".toList) =
      FixOutcome.renamed (("exp".toList) ++ '-' ::
        (((fun s : List Char => s)
            (canonicalize (lstripHashSpace (firstLine ("# b a\n".toList)))) ++
          '-' :: ("00".toList)))) :=
  ((fixFile_spec (fun s => s) ("exp".toList) ("x".toList) ("00".toList)
    ("# b a\n".toList)).2.1 (by rfl)).2 (by decide)

/-- **C7.** Validation of the parameter space fails (a raised
`ValueError`, the `ConfigurationError` of the design) exactly when some
group cardinality is zero — an empty value list — or when a selected
value tuple has an arity different from its name tuple; with no such
defect enumeration succeeds with no error. -/
theorem validation_errors :
    (∀ counts : List Nat,
      ((∃ e, gen_combinations counts = Except.error e) ↔ 0 ∈ counts) ∧
      (0 ∉ counts → ∃ l, gen_combinations counts = Except.ok l)) ∧
    (∀ items combo,
      (∀ p ∈ List.zip items combo, p.2 < p.1.2.length) →
      (((∃ e, iterflags items combo = Except.error e) ↔
        ∃ p ∈ List.zip items combo,
          p.1.1.length ≠ ((p.1.2)[p.2]?.getD []).length) ∧
      ((∀ p ∈ List.zip items combo,
          p.1.1.length = ((p.1.2)[p.2]?.getD []).length) →
        ∃ fs, iterflags items combo = Except.ok fs))) := by
  constructor
  · intro counts
    by_cases h : counts.any (fun c => c = 0) = true
    · have hz : 0 ∈ counts := by
        obtain ⟨c, hc, he⟩ := List.any_eq_true.mp h
        simp only [decide_eq_true_eq] at he
        exact he ▸ hc
      refine ⟨⟨fun _ => hz, fun _ => ⟨"Counts contains non-positive value",
        by simp [gen_combinations, h]⟩⟩, ?_⟩
      intro hn
      exact absurd hz hn
    · rw [Bool.not_eq_true] at h
      have hz : 0 ∉ counts := by
        intro hmem
        have := List.any_eq_false.mp (by exact h) 0 hmem
        simp at this
      refine ⟨⟨?_, fun hmem => absurd hmem hz⟩,
        fun _ => ⟨genCombosAux counts (List.replicate counts.length 0)
          counts.prod, by simp [gen_combinations, h]⟩⟩
      intro ⟨e, he⟩
      simp [gen_combinations, h] at he
  · intro items
    induction items with
    | nil =>
      intro combo _
      refine ⟨⟨fun ⟨e, he⟩ => by simp [iterflags] at he, fun h => ?_⟩,
        fun _ => ⟨[], by simp [iterflags]⟩⟩
      simp [List.zip] at h
    | cons it items2 ih =>
      intro combo hvalid
      obtain ⟨flags, values⟩ := it
      cases combo with
      | nil =>
        refine ⟨⟨fun ⟨e, he⟩ => by simp [iterflags] at he, fun h => ?_⟩,
          fun _ => ⟨[], by simp [iterflags]⟩⟩
        simp [List.zip] at h
      | cons i combo2 =>
        have hvalid2 : ∀ p ∈ List.zip items2 combo2, p.2 < p.1.2.length :=
          fun p hp => hvalid p (by simp [List.zip_cons_cons, hp])
        obtain ⟨ihiff, ihok⟩ := ih combo2 hvalid2
        by_cases har : flags.length = ((values)[i]?.getD []).length
        · cases hrest : iterflags items2 combo2 with
          | error e =>
            obtain ⟨q, hq, hqa⟩ := ihiff.mp ⟨e, hrest⟩
            constructor
            · constructor
              · intro _
                exact ⟨q, by simp [List.zip_cons_cons, hq], hqa⟩
              · intro _
                exact ⟨e, by simp [iterflags, har, hrest]⟩
            · intro hall
              exact absurd (hall q (by simp [List.zip_cons_cons, hq])) hqa
          | ok fs =>
            have hnone : ¬ ∃ e, iterflags items2 combo2 = Except.error e :=
              fun ⟨e, he⟩ => by rw [hrest] at he; cases he
            constructor
            · constructor
              · intro ⟨e, he⟩
                simp [iterflags, har, hrest] at he
              · intro ⟨q, hq, hqa⟩
                rcases List.mem_cons.mp (by
                  rw [List.zip_cons_cons] at hq; exact hq) with h1 | h1
                · subst h1
                  exact absurd har hqa
                · exact absurd (ihiff.mpr ⟨q, h1, hqa⟩) hnone
            · intro _
              exact ⟨renderGroup flags ((values)[i]?.getD []) ++ fs,
                by simp [iterflags, har, hrest]⟩
        · constructor
          · constructor
            · intro _
              exact ⟨((flags, values), i), by simp [List.zip_cons_cons], har⟩
            · intro _
              exact ⟨"Invalid experiment setting", by simp [iterflags, har]⟩
          · intro hall
            exact absurd (hall ((flags, values), i)
              (by simp [List.zip_cons_cons])) har

/-- Witness for C7: one valid group selection enumerates with no
error. -/
theorem validation_errors_witness :
    ∃ fs, iterflags [([['a']], [[PyVal.str ['1']], [PyVal.pynone]])] [1] =
      Except.ok fs :=
  ((validation_errors.2 [([['a']], [[PyVal.str ['1']], [PyVal.pynone]])] [1]
    (by decide)).2) (by decide)

/-! ### Pipeline-written files are fixed points of the repair tool -/

theorem mem_joinSpace {ts : List (List Char)} {c : Char}
    (hc : c ∈ joinSpace ts) : c = ' ' ∨ ∃ t ∈ ts, c ∈ t := by
  induction ts with
  | nil => simp [joinSpace] at hc
  | cons t rest ih =>
    cases rest with
    | nil =>
      simp only [joinSpace] at hc
      exact Or.inr ⟨t, by simp, hc⟩
    | cons u us =>
      simp only [joinSpace] at hc
      rcases List.mem_append.mp hc with h1 | h1
      · exact Or.inr ⟨t, by simp, h1⟩
      · rcases List.mem_cons.mp h1 with h2 | h2
        · exact Or.inl h2
        · rcases ih h2 with h3 | ⟨v, hv, hcv⟩
          · exact Or.inl h3
          · exact Or.inr ⟨v, by simp [hv], hcv⟩

theorem joinSpace_no_newline {ts : List (List Char)}
    (h : ∀ t ∈ ts, ∀ c ∈ t, ¬ isPySpace c = true) :
    '\n' ∉ joinSpace ts := by
  intro hmem
  rcases mem_joinSpace hmem with h1 | ⟨t, ht, hc⟩
  · cases h1
  · exact h t ht '\n' hc (by decide)

theorem firstLine_append (X rest : List Char) (hX : '\n' ∉ X) :
    firstLine (X ++ '\n' :: rest) = X ++ ['\n'] := by
  induction X with
  | nil => simp [firstLine]
  | cons c cs ih =>
    have hc : ¬ (c = '\n') := fun h => hX (by simp [h])
    have ih2 := ih (fun h => hX (by simp [h]))
    simp only [List.cons_append, firstLine, if_neg hc]
    rw [show cs.append ('\n' :: rest) = cs ++ '\n' :: rest from rfl, ih2]

theorem lstrip_no_strip (c : Char) (ys : List Char) (h1 : ¬ c = '#')
    (h2 : ¬ c = ' ') :
    lstripHashSpace ('#' :: ' ' :: c :: ys) = c :: ys := by
  simp [lstripHashSpace, h1, h2]

theorem splitWsAux_append_space (c : Char) (hc : isPySpace c = true) :
    ∀ s acc, splitWsAux (s ++ [c]) acc = splitWsAux s acc := by
  intro s
  induction s with
  | nil =>
    intro acc
    by_cases ha : acc.isEmpty <;> simp [splitWsAux, hc, ha]
  | cons d ds ih =>
    intro acc
    simp only [List.cons_append, splitWsAux]
    by_cases hd : isPySpace d <;> simp [hd, ih]

theorem splitWs_append_newline (s : List Char) :
    splitWs (s ++ ['\n']) = splitWs s :=
  splitWsAux_append_space '\n' (by decide) s []

theorem canonicalize_header (flags : List (List Char))
    (hwf : ∀ t ∈ flags, t ≠ [] ∧ (∀ c ∈ t, ¬ isPySpace c = true))
    (hsorted : List.Sorted (· ≤ ·) flags) :
    canonicalize (joinSpace flags ++ ['\n']) = joinSpace flags := by
  unfold canonicalize
  rw [splitWs_append_newline,
    splitWs_joinSpace flags (fun t ht => ⟨(hwf t ht).1, (hwf t ht).2⟩),
    show pySorted flags = flags from hsorted.insertionSort_eq]

theorem renderFlag_wf (f : List Char) (v : PyVal) (t : List Char)
    (hf : ∀ c ∈ f, ¬ isPySpace c = true)
    (hv : ∀ s, v = PyVal.str s → ∀ c ∈ s, ¬ isPySpace c = true)
    (h : renderFlag f v = some t) :
    t ≠ [] ∧ (∀ c ∈ t, ¬ isPySpace c = true) ∧ t.head? = some '-' := by
  cases v with
  | pynone => simp [renderFlag] at h
  | boolean b =>
    cases b with
    | true =>
      simp only [renderFlag, Option.some.injEq] at h
      subst h
      refine ⟨by simp, ?_, rfl⟩
      intro c hc
      rcases List.mem_cons.mp hc with rfl | hc2
      · decide
      · exact hf c hc2
    | false =>
      simp only [renderFlag, Option.some.injEq] at h
      subst h
      refine ⟨by simp, ?_, rfl⟩
      intro c hc
      rcases List.mem_cons.mp hc with rfl | hc2
      · decide
      rcases List.mem_cons.mp hc2 with rfl | hc3
      · decide
      rcases List.mem_cons.mp hc3 with rfl | hc4
      · decide
      · exact hf c hc4
  | str s =>
    simp only [renderFlag, Option.some.injEq] at h
    subst h
    refine ⟨by simp, ?_, rfl⟩
    intro c hc
    rcases List.mem_cons.mp hc with rfl | hc2
    · decide
    rcases List.mem_append.mp hc2 with hc3 | hc3
    · exact hf c hc3
    rcases List.mem_cons.mp hc3 with rfl | hc4
    · decide
    · exact hv s rfl c hc4

theorem renderGroup_wf (flags : List (List Char)) (vals : List PyVal)
    (hf : ∀ f ∈ flags, ∀ c ∈ f, ¬ isPySpace c = true)
    (hv : ∀ v ∈ vals, ∀ s, v = PyVal.str s → ∀ c ∈ s, ¬ isPySpace c = true) :
    ∀ t ∈ renderGroup flags vals,
      t ≠ [] ∧ (∀ c ∈ t, ¬ isPySpace c = true) ∧ t.head? = some '-' := by
  intro t ht
  simp only [renderGroup, List.mem_filterMap] at ht
  obtain ⟨⟨f, v⟩, hmem, hr⟩ := ht
  obtain ⟨hfm, hvm⟩ := List.of_mem_zip hmem
  exact renderFlag_wf f v t (hf f hfm) (fun s hs => hv v hvm s hs) hr

theorem iterflags_wf :
    ∀ items combo fs, iterflags items combo = Except.ok fs →
      (∀ p ∈ items, (∀ f ∈ p.1, ∀ c ∈ f, ¬ isPySpace c = true) ∧
        (∀ tup ∈ p.2, ∀ v ∈ tup, ∀ s, v = PyVal.str s →
          ∀ c ∈ s, ¬ isPySpace c = true)) →
      ∀ t ∈ fs, t ≠ [] ∧ (∀ c ∈ t, ¬ isPySpace c = true) ∧
        t.head? = some '-' := by
  intro items
  induction items with
  | nil =>
    intro combo fs h _
    simp only [iterflags, Except.ok.injEq] at h
    subst h
    intro t ht
    exact absurd ht (List.not_mem_nil t)
  | cons it items2 ih =>
    intro combo fs h hwf
    obtain ⟨flags, values⟩ := it
    cases combo with
    | nil =>
      simp only [iterflags, Except.ok.injEq] at h
      subst h
      intro t ht
      exact absurd ht (List.not_mem_nil t)
    | cons i combo2 =>
      simp only [iterflags] at h
      by_cases har : flags.length ≠ ((values)[i]?.getD []).length
      · rw [if_pos har] at h
        simp at h
      · rw [if_neg har] at h
        cases hrest : iterflags items2 combo2 with
        | error e =>
          rw [hrest] at h
          simp at h
        | ok fs2 =>
          rw [hrest] at h
          simp only [Except.ok.injEq] at h
          subst h
          intro t ht
          rcases List.mem_append.mp ht with h1 | h1
          · have hfwf := (hwf (flags, values) (by simp)).1
            have hvwf := (hwf (flags, values) (by simp)).2
            cases hv : (values)[i]? with
            | none =>
              simp only [hv, Option.getD_none] at h1
              simp [renderGroup] at h1
            | some tup =>
              simp only [hv, Option.getD_some] at h1
              have htup : tup ∈ values := List.getElem?_mem hv
              exact renderGroup_wf flags tup hfwf
                (fun v hvm s hs => hvwf tup htup v hvm s hs) t h1
          · exact ih combo2 fs2 hrest (fun p hp => hwf p (by simp [hp])) t h1

theorem joinSpace_cons_exists (t : List Char) (ts : List (List Char)) :
    ∃ z, joinSpace (t :: ts) = t ++ z := by
  cases ts with
  | nil => exact ⟨[], by simp [joinSpace]⟩
  | cons u us => exact ⟨' ' :: joinSpace (u :: us), rfl⟩

theorem fixFile_pipeline_unchanged (hash : List Char → List Char)
    (flags : List (List Char)) (childOut iter : List Char)
    (hwf : ∀ t ∈ flags, t ≠ [] ∧ (∀ c ∈ t, ¬ isPySpace c = true) ∧
      t.head? = some '-')
    (hsorted : List.Sorted (· ≤ ·) flags) :
    fixFile hash ("exp".toList) (hash (joinSpace flags)) iter
      (run flags childOut 0).1 = FixOutcome.unchanged := by
  have hnl : '\n' ∉ joinSpace flags :=
    joinSpace_no_newline (fun t ht => (hwf t ht).2.1)
  have hX : '\n' ∉ ('#' :: ' ' :: joinSpace flags) := by
    intro h
    rcases List.mem_cons.mp h with h1 | h1
    · cases h1
    rcases List.mem_cons.mp h1 with h2 | h2
    · cases h2
    · exact hnl h2
  have hcontent : (run flags childOut 0).1 =
      ('#' :: ' ' :: joinSpace flags) ++
        '\n' :: (childOut ++ (DONE_STR ++ ['\n'])) := by
    simp [run]
  have hfl : firstLine ((run flags childOut 0).1) =
      '#' :: ' ' :: (joinSpace flags ++ ['\n']) := by
    rw [hcontent, firstLine_append _ _ hX]
    simp
  have hstart : startsHash (firstLine ((run flags childOut 0).1)) = true := by
    rw [hfl]; rfl
  have hstrip : lstripHashSpace (firstLine ((run flags childOut 0).1)) =
      joinSpace flags ++ ['\n'] := by
    rw [hfl]
    cases hflags : flags with
    | nil => rfl
    | cons t ts =>
      obtain ⟨hne, _, hhead⟩ := hwf t (by simp [hflags])
      obtain ⟨t1, rfl⟩ : ∃ t', t = '-' :: t' := by
        cases t with
        | nil => cases hne rfl
        | cons c cs =>
          simp only [List.head?_cons, Option.some.injEq] at hhead
          exact ⟨cs, by rw [hhead]⟩
      obtain ⟨z, hz⟩ := joinSpace_cons_exists ('-' :: t1) ts
      rw [hz]
      have : ('-' :: t1) ++ z ++ ['\n'] = '-' :: (t1 ++ z ++ ['\n']) := by simp
      rw [this, lstrip_no_strip '-' _ (by decide) (by decide)]
  have hcanon : canonicalize (joinSpace flags ++ ['\n']) = joinSpace flags :=
    canonicalize_header flags (fun t ht => ⟨(hwf t ht).1, (hwf t ht).2.1⟩)
      hsorted
  simp [fixFile, hstart, hstrip, hcanon]

/-- **C10.** Every output file the scheduling pipeline itself creates is
a fixed point of the repair tool: every flag token generated by
`iterflags` (from whitespace-free names and values) is non-empty,
whitespace-free and begins with `-`; and for any such sorted flag list,
the file written by `run` for it — whose name embeds the hash of the
space-joined sorted flags — re-canonicalizes to the same header, so the
repair tool reports it unchanged and never renames it. -/
theorem scheduler_files_unchanged :
    (∀ items combo fs, iterflags items combo = Except.ok fs →
      (∀ p ∈ items, (∀ f ∈ p.1, ∀ c ∈ f, ¬ isPySpace c = true) ∧
        (∀ tup ∈ p.2, ∀ v ∈ tup, ∀ s, v = PyVal.str s →
          ∀ c ∈ s, ¬ isPySpace c = true)) →
      ∀ t ∈ fs, t ≠ [] ∧ (∀ c ∈ t, ¬ isPySpace c = true) ∧
        t.head? = some '-') ∧
    (∀ (hash : List Char → List Char) (flags : List (List Char))
        (childOut iter : List Char),
      (∀ t ∈ flags, t ≠ [] ∧ (∀ c ∈ t, ¬ isPySpace c = true) ∧
        t.head? = some '-') →
      List.Sorted (· ≤ ·) flags →
      fixFile hash ("exp".toList) (hash (joinSpace flags)) iter
        (run flags childOut 0).1 = FixOutcome.unchanged) :=
  ⟨iterflags_wf, fun hash flags childOut iter hwf hsorted =>
    fixFile_pipeline_unchanged hash flags childOut iter hwf hsorted⟩

/-- Witness for C10 at concrete sorted flags `-a -b`. -/
theorem scheduler_files_unchanged_witness :
    fixFile (fun s => s) ("exp".toList)
      ((fun s : List Char => s) (joinSpace [['-', 'a'], ['-', 'b']]))
      ("00".toList)
      (run [['-', 'a'], ['-', 'b']] ('o' :: 'u' :: 't' :: '\n' :: []) 0).1 =
      FixOutcome.unchanged :=
  scheduler_files_unchanged.2 (fun s => s) [['-', 'a'], ['-', 'b']]
    ('o' :: 'u' :: 't' :: '\n' :: []) ("00".toList) (by decide) (by decide)

end PSO
